import Mathlib

/-!
Verification of the beads Slack notifier core
(`slack/beads_watcher_template.py` and `slack/notifier.py`).

Strings are embedded as `List Char`, Python `time.time()` instants as `Int`
seconds, Python sets as `Finset String`, and Python dicts either as ordered
association lists (insertion-ordered `dict`) or as total functions with a
default value, as noted at each definition.
-/

namespace BeadsNotifier

/-! ## Sanitizer (`sanitize_for_slack`, beads_watcher_template.py lines 130-148,
identical copy in notifier.py lines 94-107) -/

/-- ASCII control characters removed by
`re.sub(r'[\x00-\x08\x0b\x0c\x0e-\x1f\x7f]', '', text)`. -/
def strippedCtl (c : Char) : Bool :=
  (c.toNat ≤ 0x08) || (c.toNat == 0x0b) || (c.toNat == 0x0c) ||
  (0x0e ≤ c.toNat && c.toNat ≤ 0x1f) || (c.toNat == 0x7f)

/-- Python `text[:k]` for a possibly negative `k` (negative indices count from
the end, clamped at zero). -/
def pySliceTo (t : List Char) (k : Int) : List Char :=
  if 0 ≤ k then t.take k.toNat else t.take (t.length - (-k).toNat)

/-- Python `str.replace` for a single-character needle: every occurrence of
`pat` is replaced by `rep`. -/
def pyReplace (pat : Char) (rep : List Char) : List Char → List Char
  | [] => []
  | c :: t => (if c = pat then rep else [c]) ++ pyReplace pat rep t

/-- The truncation step of `sanitize_for_slack`:
`if len(text) > max_length: text = text[:max_length - 3] + "..."`. -/
def truncateStep (t : List Char) (maxLength : Int) : List Char :=
  if (t.length : Int) > maxLength then pySliceTo t (maxLength - 3) ++ "...".data
  else t

/-- The three `str.replace` escape steps of `sanitize_for_slack`, in source
order: `&` first, then `<`, then `>`. -/
def escAll (t : List Char) : List Char :=
  pyReplace '>' "&gt;".data (pyReplace '<' "&lt;".data (pyReplace '&' "&amp;".data t))

/-- Embedding of `sanitize_for_slack(text, max_length)`: truncate, escape `&` then `<`
then `>`, then strip control characters.  `if not text: return ""` is the
empty-list case. -/
def sanitize_for_slack (t : List Char) (maxLength : Int := 3000) : List Char :=
  if t = [] then []
  else (escAll (truncateStep t maxLength)).filter (fun c => !strippedCtl c)

/-- Holds when `r` starts with the tail of one of the three entities `&amp;` `&lt;`
`&gt;`. -/
def entTail : List Char → Bool
  | 'a' :: 'm' :: 'p' :: ';' :: _ => true
  | 'l' :: 't' :: ';' :: _ => true
  | 'g' :: 't' :: ';' :: _ => true
  | _ => false

/-- A string is well-escaped for Slack mrkdwn when it contains no raw `<` or
`>` and every `&` starts one of the entities `&amp;`, `&lt;`, `&gt;`. -/
def wellEscaped : List Char → Bool
  | [] => true
  | c :: r =>
    if c = '<' ∨ c = '>' then false
    else if c = '&' then entTail r && wellEscaped r
    else wellEscaped r

theorem pyReplace_append (pat : Char) (rep : List Char) (a b : List Char) :
    pyReplace pat rep (a ++ b) = pyReplace pat rep a ++ pyReplace pat rep b := by
  induction a with
  | nil => rfl
  | cons c t ih => simp [pyReplace, ih]

theorem escAll_append (a b : List Char) :
    escAll (a ++ b) = escAll a ++ escAll b := by
  simp [escAll, pyReplace_append]

theorem escAll_cons (c : Char) (t : List Char) :
    escAll (c :: t) = escAll [c] ++ escAll t := by
  have : c :: t = [c] ++ t := rfl
  rw [this, escAll_append]

theorem wellEscaped_amp (r : List Char) :
    wellEscaped ("&amp;".data ++ r) = wellEscaped r := by
  simp [wellEscaped, entTail, String.data]

theorem wellEscaped_lt (r : List Char) :
    wellEscaped ("&lt;".data ++ r) = wellEscaped r := by
  simp [wellEscaped, entTail, String.data]

theorem wellEscaped_gt (r : List Char) :
    wellEscaped ("&gt;".data ++ r) = wellEscaped r := by
  simp [wellEscaped, entTail, String.data]

theorem wellEscaped_other (c : Char) (r : List Char)
    (h1 : c ≠ '<') (h2 : c ≠ '>') (h3 : c ≠ '&') :
    wellEscaped (c :: r) = wellEscaped r := by
  simp [wellEscaped, h1, h2, h3]

/-- Every output of the escaping pipeline is well-escaped. -/
theorem escAll_wellEscaped (t : List Char) : wellEscaped (escAll t) = true := by
  induction t with
  | nil => rfl
  | cons c t ih =>
    rw [escAll_cons]
    by_cases hamp : c = '&'
    · subst hamp
      have : escAll ['&'] = "&amp;".data := by decide
      rw [this, wellEscaped_amp]; exact ih
    · by_cases hlt : c = '<'
      · subst hlt
        have : escAll ['<'] = "&lt;".data := by decide
        rw [this, wellEscaped_lt]; exact ih
      · by_cases hgt : c = '>'
        · subst hgt
          have : escAll ['>'] = "&gt;".data := by decide
          rw [this, wellEscaped_gt]; exact ih
        · have : escAll [c] = [c] := by
            simp [escAll, pyReplace, hamp, hlt, hgt]
          rw [this]
          show wellEscaped (c :: escAll t) = true
          rw [wellEscaped_other c _ hlt hgt hamp]; exact ih

theorem entTail_filter (r : List Char) (h : entTail r = true) :
    entTail (r.filter (fun c => !strippedCtl c)) = true := by
  unfold entTail at h
  split at h
  · next r' => simp [List.filter, strippedCtl, entTail]
  · next r' => simp [List.filter, strippedCtl, entTail]
  · next r' => simp [List.filter, strippedCtl, entTail]
  · exact absurd h (by simp)

/-- Stripping control characters preserves well-escapedness: entity characters
are never control characters, so each `&` keeps its entity tail. -/
theorem wellEscaped_filter (l : List Char) (h : wellEscaped l = true) :
    wellEscaped (l.filter (fun c => !strippedCtl c)) = true := by
  induction l with
  | nil => exact h
  | cons c r ih =>
    unfold wellEscaped at h
    by_cases hlg : c = '<' ∨ c = '>'
    · simp [hlg] at h
    · rw [if_neg hlg] at h
      by_cases hamp : c = '&'
      · rw [if_pos hamp] at h
        simp only [Bool.and_eq_true] at h
        obtain ⟨h1, h2⟩ := h
        subst hamp
        have hk : strippedCtl '&' = false := by decide
        simp only [List.filter_cons, hk, Bool.not_false, if_pos]
        unfold wellEscaped
        rw [if_neg (by simp), if_pos rfl]
        simp only [Bool.and_eq_true]
        exact ⟨entTail_filter r h1, ih h2⟩
      · rw [if_neg hamp] at h
        by_cases hc : strippedCtl c
        · simp only [List.filter_cons, hc, Bool.not_true]
          exact ih h
        · have hcf : strippedCtl c = false := by simpa using hc
          simp only [List.filter_cons, hcf, Bool.not_false, if_pos]
          rw [wellEscaped_other c _ (fun h' => hlg (Or.inl h')) (fun h' => hlg (Or.inr h')) hamp]
          exact ih h

/-- The sanitizer always produces well-escaped output. -/
theorem sanitize_wellEscaped (t : List Char) (n : Int) :
    wellEscaped (sanitize_for_slack t n) = true := by
  unfold sanitize_for_slack
  split
  · rfl
  · exact wellEscaped_filter _ (escAll_wellEscaped _)

theorem pySliceTo_subset (t : List Char) (k : Int) : pySliceTo t k ⊆ t := by
  unfold pySliceTo
  split <;> exact List.take_subset _ _

theorem mem_truncateStep {c : Char} {t : List Char} {n : Int}
    (h : c ∈ truncateStep t n) : c ∈ t ∨ c = '.' := by
  unfold truncateStep at h
  split at h
  · rcases List.mem_append.mp h with h' | h'
    · exact Or.inl (pySliceTo_subset t _ h')
    · right
      have : c ∈ ['.', '.', '.'] := h'
      simp at this; exact this
  · exact Or.inl h

theorem truncateStep_length (t : List Char) (n : Int) (hn : 3 ≤ n) :
    ((truncateStep t n).length : Int) ≤ n := by
  unfold truncateStep
  split
  · next hgt =>
    have h0 : (0 : Int) ≤ n - 3 := by omega
    have h1 : (pySliceTo t (n - 3)).length ≤ (n - 3).toNat := by
      unfold pySliceTo
      rw [if_pos h0]
      exact List.length_take_le _ _
    have h2 : ((n - 3).toNat : Int) = n - 3 := Int.toNat_of_nonneg h0
    simp only [List.length_append]
    have h3 : (['.', '.', '.'] : List Char).length = 3 := rfl
    omega
  · next hle => omega

theorem escAll_id (t : List Char)
    (h : ∀ c ∈ t, c ≠ '&' ∧ c ≠ '<' ∧ c ≠ '>') : escAll t = t := by
  induction t with
  | nil => rfl
  | cons c r ih =>
    rw [escAll_cons]
    obtain ⟨h1, h2, h3⟩ := h c (List.mem_cons_self c r)
    have hc : escAll [c] = [c] := by simp [escAll, pyReplace, h1, h2, h3]
    rw [hc, ih (fun x hx => h x (List.mem_cons_of_mem c hx))]
    rfl

/-- Claim C3 counterexample: the sanitizer escapes *after* truncating, so the
returned length can exceed the bound; `sanitize_for_slack("&&", 2)` is
`"&amp;&amp;"`, ten characters long. -/
theorem sanitize_length_counterexample :
    ¬ ((sanitize_for_slack "&&".data 2).length ≤ 2) := by decide

/-- Claim C3 (amended): for every input and bound, the output of
`sanitize_for_slack` contains no unescaped `&`, `<`, `>` and no control
character from the stripped ranges; the length bound `≤ n` holds only when
`3 ≤ n` and the input contains none of the three escaped characters (escaping
happens after truncation and can lengthen the string past the bound). -/
theorem sanitize_postcondition (t : List Char) (n : Int) :
    wellEscaped (sanitize_for_slack t n) = true ∧
    (∀ c ∈ sanitize_for_slack t n, strippedCtl c = false) ∧
    (3 ≤ n → (∀ c ∈ t, c ≠ '&' ∧ c ≠ '<' ∧ c ≠ '>') →
      ((sanitize_for_slack t n).length : Int) ≤ n) := by
  refine ⟨sanitize_wellEscaped t n, ?_, ?_⟩
  · intro c hc
    unfold sanitize_for_slack at hc
    split at hc
    · simp at hc
    · have h' := List.of_mem_filter hc
      simp only [Bool.not_eq_true'] at h'
      exact h'
  · intro hn hspec
    unfold sanitize_for_slack
    split
    · simp only [List.length_nil, Int.natCast_zero]; omega
    · have hid : escAll (truncateStep t n) = truncateStep t n := by
        apply escAll_id
        intro c hc
        rcases mem_truncateStep hc with h' | h'
        · exact hspec c h'
        · subst h'; refine ⟨by decide, by decide, by decide⟩
      rw [hid]
      have h1 : ((truncateStep t n).filter (fun c => !strippedCtl c)).length ≤
          (truncateStep t n).length := List.length_filter_le _ _
      have h2 := truncateStep_length t n hn
      omega

/-- Witness for `sanitize_postcondition` at a concrete input. -/
theorem sanitize_postcondition_witness :
    wellEscaped (sanitize_for_slack "ab".data 5) = true ∧
    ((sanitize_for_slack "ab".data 5).length : Int) ≤ 5 := by
  have h := sanitize_postcondition "ab".data 5
  exact ⟨h.1, h.2.2 (by decide) (by decide)⟩

/-! ## RateLimiter (`RateLimiter.allow`, beads_watcher_template.py lines
151-171, identical algorithm in notifier.py lines 126-142)

Call instants are `Int` seconds; the deque of admitted timestamps is a
`List Int` with its front at the head. -/

/-- The prune loop of `allow`:
`while self.requests and self.requests[0] < now - self.window_seconds:
self.requests.popleft()`. -/
def pruneOld (w now : Int) : List Int → List Int
  | [] => []
  | t :: ts => if t < now - w then pruneOld w now ts else t :: ts

/-- One `allow()` call at instant `now` against deque `q`: prune, deny if the
deque is full, otherwise append `now` and admit. -/
def rlAllow (maxReq : Nat) (w : Int) (q : List Int) (now : Int) : Bool × List Int :=
  let p := pruneOld w now q
  if maxReq ≤ p.length then (false, p) else (true, p ++ [now])

/-- A sequence of `allow()` calls at the given instants; returns each call's
result paired with its instant, plus the final deque. -/
def rlRun (maxReq : Nat) (w : Int) (q : List Int) : List Int → List (Int × Bool) × List Int
  | [] => ([], q)
  | t :: ts =>
    let step := rlAllow maxReq w q t
    let rest := rlRun maxReq w step.2 ts
    ((t, step.1) :: rest.1, rest.2)

/-- The instants of the calls that returned `true`. -/
def admittedTimes (maxReq : Nat) (w : Int) (q : List Int) (ts : List Int) : List Int :=
  ((rlRun maxReq w q ts).1.filter (fun r => r.2)).map (fun r => r.1)

theorem admittedTimes_nil (maxReq : Nat) (w : Int) (q : List Int) :
    admittedTimes maxReq w q [] = [] := rfl

theorem admittedTimes_cons (maxReq : Nat) (w : Int) (q : List Int) (t : Int) (ts : List Int) :
    admittedTimes maxReq w q (t :: ts) =
      (let p := pruneOld w t q
       if maxReq ≤ p.length then admittedTimes maxReq w p ts
       else t :: admittedTimes maxReq w (p ++ [t]) ts) := by
  simp only [admittedTimes, rlRun, rlAllow]
  split
  · simp
  · simp

theorem pruneOld_eq_filter (w now : Int) (q : List Int)
    (hq : List.Pairwise (· ≤ ·) q) :
    pruneOld w now q = q.filter (fun x => decide (now - w ≤ x)) := by
  induction q with
  | nil => rfl
  | cons t ts ih =>
    rw [List.pairwise_cons] at hq
    unfold pruneOld
    split
    · next hlt =>
      rw [ih hq.2, List.filter_cons]
      simp only [decide_eq_true_eq]
      rw [if_neg (by omega)]
    · next hge =>
      rw [List.filter_cons]
      simp only [decide_eq_true_eq]
      rw [if_pos (by omega)]
      congr 1
      symm
      apply List.filter_eq_self.mpr
      intro x hx
      simp only [decide_eq_true_eq]
      have := hq.1 x hx
      omega

/-- The per-admission sliding-window invariant, by induction over the
remaining call instants.  `A` is the list of instants admitted so far,
`t₀` an upper bound of `A` and lower bound of the remaining instants; the
deque at this point is exactly the admitted instants still inside the
window ending at `t₀`. -/
theorem rl_invariant (maxReq : Nat) (w : Int) (hw : 0 ≤ w) :
    ∀ (ts A : List Int) (t₀ : Int),
      List.Pairwise (· ≤ ·) ts →
      (∀ t ∈ ts, t₀ ≤ t) →
      List.Pairwise (· ≤ ·) A →
      (∀ a ∈ A, a ≤ t₀) →
      (∀ a ∈ A, A.countP (fun x => decide (a - w ≤ x) && decide (x ≤ a)) ≤ maxReq) →
      (∀ a ∈ A ++ admittedTimes maxReq w (A.filter (fun x => decide (t₀ - w ≤ x))) ts,
        (A ++ admittedTimes maxReq w (A.filter (fun x => decide (t₀ - w ≤ x))) ts).countP
          (fun x => decide (a - w ≤ x) && decide (x ≤ a)) ≤ maxReq) ∧
      List.Pairwise (· ≤ ·)
        (A ++ admittedTimes maxReq w (A.filter (fun x => decide (t₀ - w ≤ x))) ts) := by
  intro ts
  induction ts with
  | nil =>
    intro A t₀ _ _ hA hAle hcount
    simp only [admittedTimes_nil, List.append_nil]
    exact ⟨hcount, hA⟩
  | cons t ts ih =>
    intro A t₀ hts htlb hA hAle hcount
    rw [List.pairwise_cons] at hts
    have ht₀t : t₀ ≤ t := htlb t (List.mem_cons_self t ts)
    -- the pruned deque is the admitted instants inside the window ending at t
    have hqsorted : List.Pairwise (· ≤ ·) (A.filter (fun x => decide (t₀ - w ≤ x))) :=
      hA.filter _
    have hprune : pruneOld w t (A.filter (fun x => decide (t₀ - w ≤ x))) =
        A.filter (fun x => decide (t - w ≤ x)) := by
      rw [pruneOld_eq_filter _ _ _ hqsorted, List.filter_filter]
      apply List.filter_congr
      intro x _
      by_cases h1 : t - w ≤ x
      · have h2 : t₀ - w ≤ x := by omega
        simp [h1, h2]
      · simp [h1]
    rw [admittedTimes_cons]
    simp only [hprune]
    split
    · -- denied: the admitted list is unchanged, continue with t₀ := t
      next hfull =>
      exact ih A t hts.2 hts.1 hA (fun a ha => le_trans (hAle a ha) ht₀t) hcount
    · -- admitted: continue with A ++ [t] and t₀ := t
      next hfree =>
      have hlen : (A.filter (fun x => decide (t - w ≤ x))).length < maxReq := by omega
      have hA' : List.Pairwise (· ≤ ·) (A ++ [t]) := by
        rw [List.pairwise_append]
        exact ⟨hA, List.pairwise_singleton _ _,
          fun a ha b hb => by
            rw [List.mem_singleton] at hb
            subst hb
            exact le_trans (hAle a ha) ht₀t⟩
      have hAle' : ∀ a ∈ A ++ [t], a ≤ t := by
        intro a ha
        rcases List.mem_append.mp ha with h | h
        · exact le_trans (hAle a h) ht₀t
        · rw [List.mem_singleton] at h; omega
      have hfilter' : (A ++ [t]).filter (fun x => decide (t - w ≤ x)) =
          A.filter (fun x => decide (t - w ≤ x)) ++ [t] := by
        rw [List.filter_append]
        congr 1
        simp only [List.filter_cons, List.filter_nil, decide_eq_true_eq]
        rw [if_pos (by omega)]
      have hcount' : ∀ a ∈ A ++ [t],
          (A ++ [t]).countP (fun x => decide (a - w ≤ x) && decide (x ≤ a)) ≤ maxReq := by
        intro a ha
        rw [List.countP_append]
        by_cases hat : t ≤ a
        · -- a = t: use the admission check
          have hat' : a = t := le_antisymm (hAle' a ha) hat
          subst hat'
          have hsingle : List.countP (fun x => decide (a - w ≤ x) && decide (x ≤ a)) [a] = 1 := by
            simp only [List.countP_cons, List.countP_nil, Bool.and_eq_true, decide_eq_true_eq]
            rw [if_pos ⟨by omega, le_refl a⟩]
          rw [hsingle]
          have hmono : A.countP (fun x => decide (a - w ≤ x) && decide (x ≤ a)) ≤
              A.countP (fun x => decide (a - w ≤ x)) := by
            apply List.countP_mono_left
            intro x _ hx
            simp only [Bool.and_eq_true, decide_eq_true_eq] at hx
            simp only [decide_eq_true_eq]
            exact hx.1
          have hflen : A.countP (fun x => decide (a - w ≤ x)) =
              (A.filter (fun x => decide (a - w ≤ x))).length :=
            List.countP_eq_length_filter _ _
          omega
        · -- a < t: the new instant t is outside a's window
          have hsingle : List.countP (fun x => decide (a - w ≤ x) && decide (x ≤ a)) [t] = 0 := by
            simp only [List.countP_cons, List.countP_nil, Bool.and_eq_true, decide_eq_true_eq]
            rw [if_neg (by omega)]
          rw [hsingle]
          rcases List.mem_append.mp ha with h | h
          · simpa using hcount a h
          · rw [List.mem_singleton] at h
            omega
      have := ih (A ++ [t]) t hts.2 hts.1 hA' hAle' hcount'
      rw [hfilter'] at this
      simpa [List.append_assoc] using this

/-- Per-admission bound lifted to an arbitrary trailing window: for every
instant `T`, at most `maxReq` admitted instants lie in `[T - w, T]`. -/
theorem rl_window_bound (maxReq : Nat) (w : Int) (ts : List Int)
    (hw : 0 ≤ w) (hsorted : List.Pairwise (· ≤ ·) ts) (T : Int) :
    (admittedTimes maxReq w [] ts).countP
      (fun x => decide (T - w ≤ x) && decide (x ≤ T)) ≤ maxReq := by
  have hbase : ∀ t₀ : Int, (∀ t ∈ ts, t₀ ≤ t) →
      (∀ a ∈ admittedTimes maxReq w [] ts,
        (admittedTimes maxReq w [] ts).countP
          (fun x => decide (a - w ≤ x) && decide (x ≤ a)) ≤ maxReq) := by
    intro t₀ hlb
    have h := rl_invariant maxReq w hw ts [] t₀ hsorted hlb
      (by simp) (by simp) (by simp)
    simpa using h.1
  have hperadm : ∀ a ∈ admittedTimes maxReq w [] ts,
      (admittedTimes maxReq w [] ts).countP
        (fun x => decide (a - w ≤ x) && decide (x ≤ a)) ≤ maxReq := by
    cases ts with
    | nil => intro a ha; simp [admittedTimes_nil] at ha
    | cons t ts' =>
      apply hbase t
      intro x hx
      rcases List.mem_cons.mp hx with h | h
      · omega
      · exact (List.pairwise_cons.mp hsorted).1 x h
  set A := admittedTimes maxReq w [] ts with hAdef
  by_cases hS : A.filter (fun x => decide (T - w ≤ x) && decide (x ≤ T)) = []
  · rw [List.countP_eq_length_filter, hS]
    simp
  · obtain ⟨m, hm⟩ : ∃ m : Int,
        (A.filter (fun x => decide (T - w ≤ x) && decide (x ≤ T))).maximum = (m : WithBot Int) := by
      cases hmax : (A.filter (fun x => decide (T - w ≤ x) && decide (x ≤ T))).maximum with
      | bot => exact absurd (List.maximum_eq_bot.mp hmax) hS
      | coe m => exact ⟨m, rfl⟩
    have hmmem := List.maximum_mem hm
    have hmA : m ∈ A := List.mem_of_mem_filter hmmem
    have hmwin : (T - w ≤ m ∧ m ≤ T) := by
      have := List.of_mem_filter hmmem
      simpa using this
    have hmono : A.countP (fun x => decide (T - w ≤ x) && decide (x ≤ T)) ≤
        A.countP (fun x => decide (m - w ≤ x) && decide (x ≤ m)) := by
      apply List.countP_mono_left
      intro x hx hxwin
      simp only [Bool.and_eq_true, decide_eq_true_eq] at hxwin
      have hxm : x ≤ m := by
        have hmem : x ∈ A.filter (fun x => decide (T - w ≤ x) && decide (x ≤ T)) :=
          List.mem_filter.mpr ⟨hx, by simp [hxwin.1, hxwin.2]⟩
        have := List.le_maximum_of_mem hmem hm
        exact_mod_cast this
      simp only [Bool.and_eq_true, decide_eq_true_eq]
      exact ⟨by omega, hxm⟩
    exact le_trans hmono (hperadm m hmA)

/-- Claim C4: sliding-window rate limiting.  For any non-decreasing sequence of
call instants, the calls admitted by `allow()` inside any trailing window of
`w` seconds never number more than `maxReq`; and concretely with the default
policy (30 per 60 s), 30 calls at instant 0 are all admitted, a 31st call at
instant 30 is denied, and a call at instant 61 is admitted again. -/
theorem rateLimiter_sliding_window (maxReq : Nat) (w : Int) (ts : List Int)
    (hw : 0 ≤ w) (hsorted : List.Pairwise (· ≤ ·) ts) :
    (∀ T : Int, (admittedTimes maxReq w [] ts).countP
      (fun x => decide (T - w ≤ x) && decide (x ≤ T)) ≤ maxReq) ∧
    ((rlRun 30 60 [] (List.replicate 30 (0 : Int) ++ [30, 61])).1.map (fun r => r.2) =
      List.replicate 30 true ++ [false, true]) := by
  refine ⟨fun T => rl_window_bound maxReq w ts hw hsorted T, ?_⟩
  decide

/-- Witness for `rateLimiter_sliding_window` at a concrete input. -/
theorem rateLimiter_sliding_window_witness :
    (admittedTimes 30 60 [] [0, 10, 40]).countP
      (fun x => decide ((45 : Int) - 60 ≤ x) && decide (x ≤ 45)) ≤ 30 :=
  (rateLimiter_sliding_window 30 60 [0, 10, 40] (by decide) (by decide)).1 45

/-! ## Issues and the change-detection engine
(`Issue`, `NotifierState`, `IssueFileHandler.process_changes`,
beads_watcher_template.py lines 262-368 and 617-697) -/

/-- Python whitespace as matched by `\s` and stripped by `str.strip()`
(ASCII range; the sources only ever contain ASCII whitespace). -/
def isPyWS (c : Char) : Bool :=
  c = ' ' || c = '\t' || c = '\n' || c = '\r' || c = '\x0b' || c = '\x0c'

/-- Embedding of the regex search for an assignment directive: scan for the leftmost position
where the literal `@assigned` is followed by at least one whitespace
character and then a nonempty run of non-whitespace; return that run. -/
def findAssignedDirective : List Char → Option (List Char)
  | [] => none
  | c :: rest =>
    if "@assigned".data.isPrefixOf (c :: rest) then
      let after := (c :: rest).drop 9
      if (after.takeWhile isPyWS) ≠ [] then
        let tok := (after.dropWhile isPyWS).takeWhile (fun x => !isPyWS x)
        if tok ≠ [] then some tok else findAssignedDirective rest
      else findAssignedDirective rest
    else findAssignedDirective rest

/-- A beads issue as built by `Issue.from_dict`; each comment is reduced to
its `"text"` field, the only part `get_assigned_agent` reads. -/
structure Issue where
  id : String
  title : String
  status : String
  priority : Int := 2
  issue_type : String := "task"
  owner : String := ""
  assignee : Option String := none
  created_at : Option String := none
  closed_at : Option String := none
  close_reason : Option String := none
  comments : List String := []
  deriving DecidableEq, Repr

/-- The comment fallback of `get_assigned_agent`: first `@assigned` directive
found scanning the given comments in order (callers pass the reversed
comment list, newest first). -/
def assignedFromComments : List String → Option String
  | [] => none
  | c :: rest =>
    match findAssignedDirective c.data with
    | some tok => some (String.mk tok)
    | none => assignedFromComments rest

/-- Embedding of `Issue.get_assigned_agent`: the explicit `assignee` when truthy
(non-`None` and nonempty), else the most recent `@assigned` comment
directive. -/
def get_assigned_agent (i : Issue) : Option String :=
  match i.assignee with
  | some a => if a = "" then assignedFromComments i.comments.reverse else some a
  | none => assignedFromComments i.comments.reverse

/-- The minimal projection persisted in `state.previous_issues`
(process_changes lines 687-696). -/
structure SnapRec where
  id : String
  status : String
  assignee : Option String
  title : String
  deriving DecidableEq, Repr

/-- Embedding of `NotifierState`: `previous_issues` is an insertion-ordered dict
(association list), `assignee_issues` a dict of sets read through
`.get(agent, set())`, embedded as a total function defaulting to `∅`. -/
structure NState where
  previous_issues : List (String × SnapRec)
  assignee_issues : String → Finset String

/-- Lookup (`dict.get`) on the persisted snapshot. -/
def lookupPrev : List (String × SnapRec) → String → Option SnapRec
  | [], _ => none
  | (k, v) :: t, key => if k = key then some v else lookupPrev t key

/-- Embedding of `NotifierState.update_assignee_tracking` (lines 350-364): resolve the
agent; on `closed` discard the issue id from that agent's set, on
`open`/`in_progress` add it; other statuses and unresolvable agents change
nothing.  The old agent's set is never touched. -/
def update_assignee_tracking (st : NState) (issue : Issue) : NState :=
  match get_assigned_agent issue with
  | none => st
  | some agent =>
    if issue.status = "closed" then
      { st with assignee_issues := fun a =>
          if a = agent then (st.assignee_issues agent).erase issue.id
          else st.assignee_issues a }
    else if issue.status = "open" ∨ issue.status = "in_progress" then
      { st with assignee_issues := fun a =>
          if a = agent then insert issue.id (st.assignee_issues agent)
          else st.assignee_issues a }
    else st

/-- The notifications requested by one scan (the `notify_*` calls made by
`process_changes`); policy filtering and rate limiting happen downstream. -/
inductive Event where
  | created (issue : Issue)
  | workStarted (issue : Issue)
  | completed (issue : Issue)
  | agentComplete (agent : String) (closedIssues : List Issue)
  deriving DecidableEq, Repr

/-- The list `[i for i in current_issues.values() if i.get_assigned_agent() == agent
and i.status == "closed"]` (lines 672-675). -/
def closedByAgent (current : List Issue) (agent : String) : List Issue :=
  current.filter (fun i =>
    decide (get_assigned_agent i = some agent) && decide (i.status = "closed"))

/-- One iteration of the `process_changes` loop (lines 647-685) for a single
issue: classification against the previous snapshot, assignee-set updates,
and the assignee-change reconciliation at the end. -/
def processItem (current : List Issue) (st : NState) (issue : Issue) :
    List Event × NState :=
  let prev := lookupPrev st.previous_issues issue.id
  let step :=
    match prev with
    | none => ([Event.created issue], update_assignee_tracking st issue)
    | some p =>
      if p.status ≠ issue.status then
        if issue.status = "in_progress" ∧ p.status ≠ "in_progress" then
          ([Event.workStarted issue], update_assignee_tracking st issue)
        else if issue.status = "closed" ∧ p.status ≠ "closed" then
          match get_assigned_agent issue with
          | some agent =>
            let st1 := update_assignee_tracking st issue
            let extra :=
              if st1.assignee_issues agent = ∅ then
                let cba := closedByAgent current agent
                if cba ≠ [] then [Event.agentComplete agent cba] else []
              else []
            (Event.completed issue :: extra, update_assignee_tracking st1 issue)
          | none => ([Event.completed issue], update_assignee_tracking st issue)
        else ([], update_assignee_tracking st issue)
      else ([], st)
  let oldAssignee := match prev with | some p => p.assignee | none => none
  let st2 :=
    if oldAssignee ≠ issue.assignee then update_assignee_tracking step.2 issue
    else step.2
  (step.1, st2)

/-- The `for issue_id, issue in current_issues.items()` loop. -/
def runItems (current : List Issue) (st : NState) : List Issue → List Event × NState
  | [] => ([], st)
  | i :: rest =>
    let step := processItem current st i
    let next := runItems current step.2 rest
    (step.1 ++ next.1, next.2)

/-- The persisted projection of an issue (lines 688-696). -/
def snapProj (i : Issue) : SnapRec := ⟨i.id, i.status, i.assignee, i.title⟩

/-- Embedding of `IssueFileHandler.process_changes` on an already-parsed issue list:
classify every current issue, then replace `previous_issues` with the
projections of the current issues. -/
def process_changes (st : NState) (current : List Issue) : List Event × NState :=
  let run := runItems current st current
  (run.1, { run.2 with previous_issues := current.map (fun i => (i.id, snapProj i)) })

/-- The outcome of opening and reading the issues store.  `readError` covers
`open()`/iteration raising (the `except Exception` at parse_issues_jsonl
line 611): the accumulated dict — empty when the open itself fails — is
returned.  JSON decoding of individual lines is abstracted: items arrive
pre-parsed. -/
inductive ReadResult where
  | ok (items : List Issue)
  | readError
  deriving DecidableEq, Repr

/-- Python `issues[issue.id] = issue`: update in place when the key exists
(keeping its dict position), else append. -/
def dictInsertIssue (m : List (String × Issue)) (k : String) (v : Issue) :
    List (String × Issue) :=
  if m.any (fun kv => kv.1 = k) then
    m.map (fun kv => if kv.1 = k then (k, v) else kv)
  else m ++ [(k, v)]

/-- Embedding of `parse_issues_jsonl`: on a read error the (empty) accumulated dict is
returned; otherwise the items keyed by id in insertion order. -/
def parse_issues_jsonl : ReadResult → List Issue
  | .ok items => (items.foldl (fun m i => dictInsertIssue m i.id i) []).map (fun kv => kv.2)
  | .readError => []

/-- The state of a fresh notifier (empty snapshot, empty index). -/
def emptyState : NState := ⟨[], fun _ => ∅⟩

/-- An open issue assigned to `agent-a`. -/
def reassignFrom : Issue := { id := "bead-1", title := "t", status := "open", assignee := some "agent-a" }

/-- The same issue after reassignment to `agent-b`, still open. -/
def reassignTo : Issue := { id := "bead-1", title := "t", status := "open", assignee := some "agent-b" }

/-- Claim C1: the claimed AssigneeIndex invariant fails in the code.  After a scan
sees `bead-1` open and assigned to `agent-a` and a second scan sees it open
and assigned to `agent-b`, the id sits in *both* agents' sets:
`update_assignee_tracking` only ever touches the new agent's set and nothing
removes the id from the old agent's set. -/
theorem assigneeIndex_reassignment_bug :
    ("bead-1" ∈ ((process_changes (process_changes emptyState [reassignFrom]).2
        [reassignTo]).2.assignee_issues "agent-a")) ∧
    ("bead-1" ∈ ((process_changes (process_changes emptyState [reassignFrom]).2
        [reassignTo]).2.assignee_issues "agent-b")) ∧
    "agent-a" ≠ "agent-b" := by decide

/-- A persisted state remembering one open issue for `agent-a`. -/
def priorState : NState :=
  ⟨[("bead-1", ⟨"bead-1", "open", some "agent-a", "Fix bug"⟩)],
   fun a => if a = "agent-a" then {"bead-1"} else ∅⟩

/-- Claim C2: a read error yields zero events, but the persisted snapshot is
*not* left unchanged — `parse_issues_jsonl` returns an empty dict on a read
error, and `process_changes` then replaces `previous_issues` with the empty
projection, wiping the snapshot. -/
theorem readError_wipes_snapshot :
    (process_changes priorState (parse_issues_jsonl ReadResult.readError)).1 = [] ∧
    (process_changes priorState (parse_issues_jsonl ReadResult.readError)).2.previous_issues = [] ∧
    priorState.previous_issues ≠ [] := by decide

/-- The notification requests of one item's processing, written as a bare
case analysis (the first component of `processItem`). -/
theorem processItem_fst (current : List Issue) (st : NState) (issue : Issue) :
    (processItem current st issue).1 =
      match lookupPrev st.previous_issues issue.id with
      | none => [Event.created issue]
      | some p =>
        if p.status ≠ issue.status then
          if issue.status = "in_progress" ∧ p.status ≠ "in_progress" then
            [Event.workStarted issue]
          else if issue.status = "closed" ∧ p.status ≠ "closed" then
            match get_assigned_agent issue with
            | some agent =>
              Event.completed issue ::
                (if (update_assignee_tracking st issue).assignee_issues agent = ∅ then
                  if closedByAgent current agent ≠ [] then
                    [Event.agentComplete agent (closedByAgent current agent)]
                  else []
                else [])
            | none => [Event.completed issue]
          else []
        else [] := by
  unfold processItem
  cases hp : lookupPrev st.previous_issues issue.id with
  | none => rfl
  | some p =>
    by_cases h1 : p.status ≠ issue.status
    · by_cases h2 : issue.status = "in_progress" ∧ p.status ≠ "in_progress"
      · simp only [if_pos h1, if_pos h2]
      · by_cases h3 : issue.status = "closed" ∧ p.status ≠ "closed"
        · simp only [if_pos h1, if_neg h2, if_pos h3]
          cases hg : get_assigned_agent issue <;> simp
        · simp only [if_pos h1, if_neg h2, if_neg h3]
    · simp only [if_neg h1]

theorem processItem_fst_none (current : List Issue) (st : NState) (issue : Issue)
    (hp : lookupPrev st.previous_issues issue.id = none) :
    (processItem current st issue).1 = [Event.created issue] := by
  rw [processItem_fst, hp]

theorem processItem_fst_stable (current : List Issue) (st : NState) (issue : Issue)
    (p : SnapRec) (hp : lookupPrev st.previous_issues issue.id = some p)
    (hs : ¬ p.status ≠ issue.status) :
    (processItem current st issue).1 = [] := by
  rw [processItem_fst, hp]
  exact if_neg hs

theorem processItem_fst_workStarted (current : List Issue) (st : NState) (issue : Issue)
    (p : SnapRec) (hp : lookupPrev st.previous_issues issue.id = some p)
    (hs : p.status ≠ issue.status)
    (hw : issue.status = "in_progress" ∧ p.status ≠ "in_progress") :
    (processItem current st issue).1 = [Event.workStarted issue] := by
  rw [processItem_fst, hp]
  simp only [if_pos hs, if_pos hw]

theorem processItem_fst_other (current : List Issue) (st : NState) (issue : Issue)
    (p : SnapRec) (hp : lookupPrev st.previous_issues issue.id = some p)
    (hs : p.status ≠ issue.status)
    (hw : ¬ (issue.status = "in_progress" ∧ p.status ≠ "in_progress"))
    (hc : ¬ (issue.status = "closed" ∧ p.status ≠ "closed")) :
    (processItem current st issue).1 = [] := by
  rw [processItem_fst, hp]
  simp only [if_pos hs, if_neg hw, if_neg hc]

theorem processItem_fst_completed_noAgent (current : List Issue) (st : NState) (issue : Issue)
    (p : SnapRec) (hp : lookupPrev st.previous_issues issue.id = some p)
    (hs : p.status ≠ issue.status)
    (hw : ¬ (issue.status = "in_progress" ∧ p.status ≠ "in_progress"))
    (hc : issue.status = "closed" ∧ p.status ≠ "closed")
    (hg : get_assigned_agent issue = none) :
    (processItem current st issue).1 = [Event.completed issue] := by
  rw [processItem_fst, hp]
  simp only [if_pos hs, if_neg hw, if_pos hc, hg]

theorem processItem_fst_completed_agent (current : List Issue) (st : NState) (issue : Issue)
    (p : SnapRec) (agent : String)
    (hp : lookupPrev st.previous_issues issue.id = some p)
    (hs : p.status ≠ issue.status)
    (hw : ¬ (issue.status = "in_progress" ∧ p.status ≠ "in_progress"))
    (hc : issue.status = "closed" ∧ p.status ≠ "closed")
    (hg : get_assigned_agent issue = some agent) :
    (processItem current st issue).1 =
      Event.completed issue ::
        (if (update_assignee_tracking st issue).assignee_issues agent = ∅ then
          if closedByAgent current agent ≠ [] then
            [Event.agentComplete agent (closedByAgent current agent)]
          else []
        else []) := by
  rw [processItem_fst, hp]
  simp only [if_pos hs, if_neg hw, if_pos hc, hg]

theorem created_mem_iff (current : List Issue) (st : NState) (issue : Issue) :
    Event.created issue ∈ (processItem current st issue).1 ↔
      lookupPrev st.previous_issues issue.id = none := by
  cases hp : lookupPrev st.previous_issues issue.id with
  | none =>
    rw [processItem_fst_none current st issue hp]
    simp
  | some p =>
    refine iff_of_false (fun hmem => ?_) (by simp)
    by_cases hs : p.status ≠ issue.status
    · by_cases hw : issue.status = "in_progress" ∧ p.status ≠ "in_progress"
      · rw [processItem_fst_workStarted current st issue p hp hs hw] at hmem
        simp at hmem
      · by_cases hc : issue.status = "closed" ∧ p.status ≠ "closed"
        · cases hg : get_assigned_agent issue with
          | none =>
            rw [processItem_fst_completed_noAgent current st issue p hp hs hw hc hg] at hmem
            simp at hmem
          | some agent =>
            rw [processItem_fst_completed_agent current st issue p agent hp hs hw hc hg] at hmem
            split_ifs at hmem <;> simp at hmem
        · rw [processItem_fst_other current st issue p hp hs hw hc] at hmem
          simp at hmem
    · rw [processItem_fst_stable current st issue p hp hs] at hmem
      simp at hmem

theorem workStarted_mem_iff (current : List Issue) (st : NState) (issue : Issue) :
    Event.workStarted issue ∈ (processItem current st issue).1 ↔
      ∃ p, lookupPrev st.previous_issues issue.id = some p ∧
        issue.status = "in_progress" ∧ p.status ≠ "in_progress" := by
  cases hp : lookupPrev st.previous_issues issue.id with
  | none =>
    rw [processItem_fst_none current st issue hp]
    simp
  | some p =>
    have hR : (∃ p', (some p : Option SnapRec) = some p' ∧
        issue.status = "in_progress" ∧ p'.status ≠ "in_progress") ↔
        (issue.status = "in_progress" ∧ p.status ≠ "in_progress") := by simp
    rw [hR]
    by_cases hs : p.status ≠ issue.status
    · by_cases hw : issue.status = "in_progress" ∧ p.status ≠ "in_progress"
      · rw [processItem_fst_workStarted current st issue p hp hs hw]
        exact iff_of_true (by simp) hw
      · refine iff_of_false (fun hmem => ?_) hw
        by_cases hc : issue.status = "closed" ∧ p.status ≠ "closed"
        · cases hg : get_assigned_agent issue with
          | none =>
            rw [processItem_fst_completed_noAgent current st issue p hp hs hw hc hg] at hmem
            simp at hmem
          | some agent =>
            rw [processItem_fst_completed_agent current st issue p agent hp hs hw hc hg] at hmem
            split_ifs at hmem <;> simp at hmem
        · rw [processItem_fst_other current st issue p hp hs hw hc] at hmem
          simp at hmem
    · rw [processItem_fst_stable current st issue p hp hs]
      rw [not_not] at hs
      refine iff_of_false (by simp) (fun hR' => hR'.2 (hs.trans hR'.1))

theorem completed_mem_iff (current : List Issue) (st : NState) (issue : Issue) :
    Event.completed issue ∈ (processItem current st issue).1 ↔
      ∃ p, lookupPrev st.previous_issues issue.id = some p ∧
        issue.status = "closed" ∧ p.status ≠ "closed" := by
  cases hp : lookupPrev st.previous_issues issue.id with
  | none =>
    rw [processItem_fst_none current st issue hp]
    simp
  | some p =>
    have hR : (∃ p', (some p : Option SnapRec) = some p' ∧
        issue.status = "closed" ∧ p'.status ≠ "closed") ↔
        (issue.status = "closed" ∧ p.status ≠ "closed") := by simp
    rw [hR]
    by_cases hs : p.status ≠ issue.status
    · by_cases hw : issue.status = "in_progress" ∧ p.status ≠ "in_progress"
      · rw [processItem_fst_workStarted current st issue p hp hs hw]
        refine iff_of_false (by simp) (fun hR' => ?_)
        rw [hR'.1] at hw
        exact absurd hw.1 (by decide)
      · by_cases hc : issue.status = "closed" ∧ p.status ≠ "closed"
        · cases hg : get_assigned_agent issue with
          | none =>
            rw [processItem_fst_completed_noAgent current st issue p hp hs hw hc hg]
            exact iff_of_true (by simp) hc
          | some agent =>
            rw [processItem_fst_completed_agent current st issue p agent hp hs hw hc hg]
            exact iff_of_true (by simp) hc
        · rw [processItem_fst_other current st issue p hp hs hw hc]
          exact iff_of_false (by simp) hc
    · rw [processItem_fst_stable current st issue p hp hs]
      rw [not_not] at hs
      refine iff_of_false (by simp) (fun hR' => hR'.2 (hs.trans hR'.1))

/-- Scan 1 of the three-scan scenario: the item is open. -/
def scanX0 : Issue := { id := "X-1", title := "Fix bug", status := "open" }

/-- Scan 2: the same item now in progress. -/
def scanX1 : Issue := { scanX0 with status := "in_progress" }

/-- Scan 3: the same item now closed. -/
def scanX2 : Issue := { scanX0 with status := "closed" }

/-- Claim C6: transition classification.  Per item: `Created` fires iff the id is
absent from the previous snapshot (so an item first seen already closed fires
`Created` only, never `Completed`); `WorkStarted` fires iff the id is present
and the status changed to `in_progress` from a non-`in_progress` status;
`Completed` fires iff the id is present and the status changed to `closed`
from a non-closed status; any other status change fires nothing.  Concretely,
an item going open → in_progress → closed across three scans fires
`WorkStarted` on scan 2 and `Completed` on scan 3 only. -/
theorem transition_classification (current : List Issue) (st : NState) (issue : Issue) :
    (Event.created issue ∈ (processItem current st issue).1 ↔
      lookupPrev st.previous_issues issue.id = none) ∧
    (Event.workStarted issue ∈ (processItem current st issue).1 ↔
      ∃ p, lookupPrev st.previous_issues issue.id = some p ∧
        issue.status = "in_progress" ∧ p.status ≠ "in_progress") ∧
    (Event.completed issue ∈ (processItem current st issue).1 ↔
      ∃ p, lookupPrev st.previous_issues issue.id = some p ∧
        issue.status = "closed" ∧ p.status ≠ "closed") ∧
    ((process_changes emptyState [scanX0]).1 = [Event.created scanX0] ∧
      (process_changes (process_changes emptyState [scanX0]).2 [scanX1]).1 =
        [Event.workStarted scanX1] ∧
      (process_changes (process_changes (process_changes emptyState [scanX0]).2
          [scanX1]).2 [scanX2]).1 = [Event.completed scanX2]) :=
  ⟨created_mem_iff current st issue, workStarted_mem_iff current st issue,
   completed_mem_iff current st issue, by decide⟩

/-- Witness for `transition_classification` at a concrete input: an item first
seen with status closed fires `Created` and not `Completed`. -/
theorem transition_classification_witness :
    (Event.created scanX2 ∈ (processItem [scanX2] emptyState scanX2).1) ∧
    ¬ (Event.completed scanX2 ∈ (processItem [scanX2] emptyState scanX2).1) := by
  have h := transition_classification [scanX2] emptyState scanX2
  refine ⟨h.1.mpr (by decide), fun hc => ?_⟩
  obtain ⟨p, hp, _⟩ := h.2.2.1.mp hc
  simp [emptyState, lookupPrev] at hp

theorem update_closed_erase (st : NState) (issue : Issue) (agent : String)
    (hg : get_assigned_agent issue = some agent) (hc : issue.status = "closed") :
    (update_assignee_tracking st issue).assignee_issues agent =
      (st.assignee_issues agent).erase issue.id := by
  unfold update_assignee_tracking
  simp only [hg, if_pos hc]
  simp

theorem agentComplete_mem_iff (current : List Issue) (st : NState) (issue : Issue)
    (a : String) (lst : List Issue) :
    Event.agentComplete a lst ∈ (processItem current st issue).1 ↔
      ((∃ p, lookupPrev st.previous_issues issue.id = some p ∧ p.status ≠ "closed") ∧
       issue.status = "closed" ∧
       get_assigned_agent issue = some a ∧
       (st.assignee_issues a).erase issue.id = ∅ ∧
       lst = closedByAgent current a ∧ lst ≠ []) := by
  cases hp : lookupPrev st.previous_issues issue.id with
  | none =>
    refine iff_of_false ?_ (by simp)
    rw [processItem_fst_none current st issue hp]
    simp
  | some p =>
    have hexists : (∃ p', (some p : Option SnapRec) = some p' ∧ p'.status ≠ "closed") ↔
        p.status ≠ "closed" := by simp
    rw [hexists]
    by_cases hs : p.status ≠ issue.status
    · by_cases hw : issue.status = "in_progress" ∧ p.status ≠ "in_progress"
      · rw [processItem_fst_workStarted current st issue p hp hs hw]
        refine iff_of_false (by simp) (fun hR => ?_)
        exact absurd (hw.1.symm.trans hR.2.1) (by decide)
      · by_cases hc : issue.status = "closed" ∧ p.status ≠ "closed"
        · cases hg : get_assigned_agent issue with
          | none =>
            rw [processItem_fst_completed_noAgent current st issue p hp hs hw hc hg]
            refine iff_of_false (by simp) (fun hR => ?_)
            obtain ⟨h1, h2, h3, h4, h5, h6⟩ := hR
            exact Option.noConfusion h3
          | some agent =>
            rw [processItem_fst_completed_agent current st issue p agent hp hs hw hc hg]
            have herase := update_closed_erase st issue agent hg hc.1
            by_cases hA : (update_assignee_tracking st issue).assignee_issues agent = ∅
            · by_cases hB : closedByAgent current agent ≠ []
              · rw [if_pos hA, if_pos hB]
                constructor
                · intro hmem
                  simp at hmem
                  obtain ⟨ha, hl⟩ := hmem
                  subst ha
                  subst hl
                  exact ⟨hc.2, hc.1, rfl, herase ▸ hA, rfl, hB⟩
                · rintro ⟨h1, h2, h3, h4, h5, h6⟩
                  injection h3 with h3
                  subst h3
                  subst h5
                  simp
              · rw [if_pos hA, if_neg hB]
                refine iff_of_false (by simp) (fun hR => ?_)
                obtain ⟨h1, h2, h3, h4, h5, h6⟩ := hR
                rw [not_not] at hB
                injection h3 with h3
                subst h3
                exact h6 (h5.trans hB)
            · rw [if_neg hA]
              refine iff_of_false (by simp) (fun hR => ?_)
              obtain ⟨h1, h2, h3, h4, h5, h6⟩ := hR
              injection h3 with h3
              subst h3
              exact hA (herase.trans h4)
        · rw [processItem_fst_other current st issue p hp hs hw hc]
          refine iff_of_false (by simp) (fun hR => hc ⟨hR.2.1, hR.1⟩)
    · rw [processItem_fst_stable current st issue p hp hs]
      rw [not_not] at hs
      refine iff_of_false (by simp) (fun hR => hR.1 (hs.trans hR.2.1))

theorem agentComplete_ordering (current : List Issue) (st : NState) (issue : Issue)
    (a : String) (lst : List Issue)
    (h : Event.agentComplete a lst ∈ (processItem current st issue).1) :
    (processItem current st issue).1 =
      [Event.completed issue, Event.agentComplete a lst] := by
  obtain ⟨⟨p, hp, hpc⟩, hcl, hg, her, hlst, hne⟩ :=
    (agentComplete_mem_iff current st issue a lst).mp h
  have hs : p.status ≠ issue.status := by rw [hcl]; exact hpc
  have hw : ¬ (issue.status = "in_progress" ∧ p.status ≠ "in_progress") := by
    rintro ⟨h1, _⟩
    rw [hcl] at h1
    exact absurd h1 (by decide)
  rw [processItem_fst_completed_agent current st issue p a hp hs hw ⟨hcl, hpc⟩ hg]
  have hA : (update_assignee_tracking st issue).assignee_issues a = ∅ :=
    (update_closed_erase st issue a hg hcl).trans her
  have hB : closedByAgent current a ≠ [] := fun hnil => hne (hlst.trans hnil)
  rw [if_pos hA, if_pos hB, hlst]

/-- First scan of the two-item scenario: `X` closes, `Y` still open. -/
def issueXClosed : Issue := { id := "X", title := "x", status := "closed", assignee := some "A" }

/-- Issue `Y`, open and assigned to `A`. -/
def issueYOpen : Issue := { id := "Y", title := "y", status := "open", assignee := some "A" }

/-- Issue `Y` after it closes on the second scan. -/
def issueYClosed : Issue := { issueYOpen with status := "closed" }

/-- Persisted state with `X` and `Y` open and outstanding for agent `A`. -/
def twoItemState : NState :=
  ⟨[("X", ⟨"X", "open", some "A", "x"⟩), ("Y", ⟨"Y", "open", some "A", "y"⟩)],
   fun a => if a = "A" then {"X", "Y"} else ∅⟩

/-- Claim C7: AssigneeAllComplete correctness.  Per item, an
`AssigneeAllComplete(a, lst)` notification fires iff that item's `Completed`
transition fires, its resolved agent is `a`, removing the item from `a`'s
outstanding set leaves it empty, and `lst` — the current items assigned to
`a` with status closed — is nonempty; when it fires the item's events are
exactly `Completed` followed by `AssigneeAllComplete`.  Concretely, with
agent `A` holding `{X, Y}`, closing `X` fires `Completed` only, and
subsequently closing `Y` fires `Completed` and then
`AssigneeAllComplete(A, [X, Y])`. -/
theorem assigneeAllComplete_characterization (current : List Issue) (st : NState)
    (issue : Issue) (a : String) (lst : List Issue) :
    (Event.agentComplete a lst ∈ (processItem current st issue).1 ↔
      ((∃ p, lookupPrev st.previous_issues issue.id = some p ∧ p.status ≠ "closed") ∧
       issue.status = "closed" ∧
       get_assigned_agent issue = some a ∧
       (st.assignee_issues a).erase issue.id = ∅ ∧
       lst = closedByAgent current a ∧ lst ≠ [])) ∧
    (Event.agentComplete a lst ∈ (processItem current st issue).1 →
      (processItem current st issue).1 =
        [Event.completed issue, Event.agentComplete a lst]) ∧
    ((process_changes twoItemState [issueXClosed, issueYOpen]).1 =
        [Event.completed issueXClosed] ∧
      (process_changes (process_changes twoItemState [issueXClosed, issueYOpen]).2
          [issueXClosed, issueYClosed]).1 =
        [Event.completed issueYClosed,
         Event.agentComplete "A" [issueXClosed, issueYClosed]]) :=
  ⟨agentComplete_mem_iff current st issue a lst,
   agentComplete_ordering current st issue a lst, by decide⟩

/-- Persisted state with only `Y` outstanding for agent `A`. -/
def oneItemState : NState :=
  ⟨[("Y", ⟨"Y", "open", some "A", "y"⟩)], fun a => if a = "A" then {"Y"} else ∅⟩

/-- Witness for `assigneeAllComplete_characterization` at a concrete input. -/
theorem assigneeAllComplete_characterization_witness :
    (processItem [issueYClosed] oneItemState issueYClosed).1 =
      [Event.completed issueYClosed,
       Event.agentComplete "A" (closedByAgent [issueYClosed] "A")] :=
  (assigneeAllComplete_characterization [issueYClosed] oneItemState issueYClosed
    "A" (closedByAgent [issueYClosed] "A")).2.1 (by decide)

theorem lookupPrev_map_proj (current : List Issue) (issue : Issue)
    (hmem : issue ∈ current) (hnodup : (current.map (fun i => i.id)).Nodup) :
    lookupPrev (current.map (fun i => (i.id, snapProj i))) issue.id =
      some (snapProj issue) := by
  induction current with
  | nil => cases hmem
  | cons i rest ih =>
    rcases List.mem_cons.mp hmem with heq | hmem'
    · subst heq
      simp [lookupPrev]
    · have hne : i.id ≠ issue.id := by
        rw [List.map_cons, List.nodup_cons] at hnodup
        intro he
        exact hnodup.1 (he ▸ List.mem_map.mpr ⟨issue, hmem', rfl⟩)
      rw [List.map_cons]
      show (if i.id = issue.id then some (snapProj i)
        else lookupPrev (rest.map (fun i => (i.id, snapProj i))) issue.id) = _
      rw [if_neg hne]
      rw [List.map_cons, List.nodup_cons] at hnodup
      exact ih hmem' hnodup.2

theorem processItem_neutral (current : List Issue) (st : NState) (issue : Issue)
    (p : SnapRec) (hp : lookupPrev st.previous_issues issue.id = some p)
    (hstat : p.status = issue.status) (hassign : p.assignee = issue.assignee) :
    processItem current st issue = ([], st) := by
  unfold processItem
  simp only [hp]
  have h1 : ¬ p.status ≠ issue.status := fun h => h hstat
  rw [if_neg h1, if_neg (fun h => h hassign)]

theorem runItems_neutral (current : List Issue) (st : NState) (l : List Issue)
    (h : ∀ i ∈ l, processItem current st i = ([], st)) :
    runItems current st l = ([], st) := by
  induction l with
  | nil => rfl
  | cons i rest ih =>
    simp only [runItems, h i (List.mem_cons_self i rest)]
    rw [ih (fun x hx => h x (List.mem_cons_of_mem _ hx))]
    rfl

/-- Claim C9: scan idempotence.  Re-running a scan against the unchanged parsed
store produces zero notification requests the second time and leaves the
persisted state exactly as the first scan left it. -/
theorem scan_idempotent (st : NState) (current : List Issue)
    (hnodup : (current.map (fun i => i.id)).Nodup) :
    (process_changes (process_changes st current).2 current).1 = [] ∧
    (process_changes (process_changes st current).2 current).2 =
      (process_changes st current).2 := by
  set st1 := (process_changes st current).2 with hst1
  have hprev : st1.previous_issues = current.map (fun i => (i.id, snapProj i)) := rfl
  have hneutral : ∀ i ∈ current, processItem current st1 i = ([], st1) := by
    intro i hi
    apply processItem_neutral current st1 i (snapProj i)
    · rw [hprev]
      exact lookupPrev_map_proj current i hi hnodup
    · rfl
    · rfl
  have hrun : runItems current st1 current = ([], st1) :=
    runItems_neutral _ _ _ hneutral
  constructor
  · show (runItems current st1 current).1 = []
    rw [hrun]
  · show ({ (runItems current st1 current).2 with
        previous_issues := current.map (fun i => (i.id, snapProj i)) } : NState) = st1
    rw [hrun]
    show ({ st1 with previous_issues := current.map (fun i => (i.id, snapProj i)) } : NState) = st1
    rw [← hprev]

/-- Witness for `scan_idempotent` at a concrete input. -/
theorem scan_idempotent_witness :
    (process_changes (process_changes emptyState [scanX0]).2 [scanX0]).1 = [] ∧
    (process_changes (process_changes emptyState [scanX0]).2 [scanX0]).2 =
      (process_changes emptyState [scanX0]).2 :=
  scan_idempotent emptyState [scanX0] (by decide)

/-! ## Webhook configuration resolution (`SlackConfig.load`,
beads_watcher_template.py lines 196-259 / notifier.py lines 166-222, and
`get_webhook_url`, notifier.py lines 274-305) -/

/-- Embedding of `str.strip()`: remove leading and trailing whitespace. -/
def pyStrip (s : List Char) : List Char :=
  ((s.dropWhile isPyWS).reverse.dropWhile isPyWS).reverse

/-- The three states of the config file a resolution can meet: missing,
present but failing to parse (`yaml.safe_load` raises), or parsed with the
given `webhook_url` value (absent key = empty string). -/
inductive ConfigFile where
  | absent
  | unparseable
  | parsed (webhook : List Char)
  deriving DecidableEq, Repr

/-- What a resolution runs against: the secrets-file contents when that file
exists and is readable, the state of the config file, and the process
environment. -/
structure ConfigEnv where
  secretsFile : Option (List Char)
  configFile : ConfigFile
  sysEnv : List Char → Option (List Char)

/-- The webhook value `SlackConfig.load` reads from the secrets file
(lines 202-215): the stripped contents when the file exists, else empty. -/
def secretsValue (e : ConfigEnv) : List Char :=
  match e.secretsFile with | some s => pyStrip s | none => []

/-- The two-character placeholder opener (a dollar sign and an opening
brace). -/
def placeholderOpen : List Char := ['$', '\x7b']

/-- The one-character placeholder closer (a closing brace). -/
def placeholderClose : List Char := ['\x7d']

/-- The placeholder expansion: when the config value is wrapped in the
placeholder delimiters, look the inner name up in the environment (missing
variable = empty string); otherwise the value itself. -/
def expandPlaceholder (env : List Char → Option (List Char)) (w : List Char) : List Char :=
  if placeholderOpen.isPrefixOf w ∧ placeholderClose.isSuffixOf w then
    (env ((w.drop 2).dropLast)).getD []
  else w

/-- The webhook-url part of `SlackConfig.load`: secrets file first (when its
stripped contents are nonempty), then the config file (placeholder-expanded),
then the `SLACK_WEBHOOK_URL` environment variable — except that a config
file which exists but fails to parse triggers the early
`except ...: return config` (notifier.py lines 192-194), skipping the
environment fallback. -/
def SlackConfig_load_webhook (e : ConfigEnv) : List Char :=
  let fromSecrets := secretsValue e
  match e.configFile with
  | ConfigFile.unparseable => fromSecrets
  | ConfigFile.absent =>
    if fromSecrets ≠ [] then fromSecrets
    else (e.sysEnv "SLACK_WEBHOOK_URL".data).getD []
  | ConfigFile.parsed w =>
    let w1 := if fromSecrets ≠ [] then fromSecrets else expandPlaceholder e.sysEnv w
    if w1 ≠ [] then w1
    else (e.sysEnv "SLACK_WEBHOOK_URL".data).getD []

/-- The config-file fallback of `get_webhook_url` (notifier.py lines
292-303): a placeholder value expands through the environment (even to the
empty string), a nonempty plain value is returned, an empty one yields
`None`; a missing or unparseable file (the `except ...: pass`) yields
`None`. -/
def get_webhook_url_configpart (e : ConfigEnv) : Option (List Char) :=
  match e.configFile with
  | ConfigFile.parsed w =>
    if placeholderOpen.isPrefixOf w ∧ placeholderClose.isSuffixOf w then
      some ((e.sysEnv ((w.drop 2).dropLast)).getD [])
    else if w ≠ [] then some w else none
  | _ => none

/-- The environment-then-config tail of `get_webhook_url` (lines 288-303). -/
def get_webhook_url_envpart (e : ConfigEnv) : Option (List Char) :=
  let envUrl := (e.sysEnv "SLACK_WEBHOOK_URL".data).getD []
  if envUrl ≠ [] then some envUrl else get_webhook_url_configpart e

/-- Embedding of `get_webhook_url` (notifier.py lines 274-305): secrets file (skipping
empty and `#`-comment contents), then the plain environment variable, then
the config file. -/
def get_webhook_url (e : ConfigEnv) : Option (List Char) :=
  match e.secretsFile with
  | some s =>
    let w := pyStrip s
    if w ≠ [] ∧ ¬ "#".data.isPrefixOf w then some w
    else get_webhook_url_envpart e
  | none => get_webhook_url_envpart e

/-- Modelled from the spec: the claimed precedence — the secrets-file value
when one is present, else the config-file value with a placeholder expanded
from the environment, else the plain `SLACK_WEBHOOK_URL` environment
variable.  The spec attaches no meaning to an unparseable config file, so
one contributes no config value here. -/
def specWebhookResolution (e : ConfigEnv) : List Char :=
  let sec := secretsValue e
  if sec ≠ [] then sec
  else
    let cfg := match e.configFile with
      | ConfigFile.parsed w => expandPlaceholder e.sysEnv w
      | _ => []
    if cfg ≠ [] then cfg
    else (e.sysEnv "SLACK_WEBHOOK_URL".data).getD []

/-- No secrets file, a parsed config file supplying a webhook, and
`SLACK_WEBHOOK_URL` set. -/
def resolutionEnvCx : ConfigEnv :=
  { secretsFile := none
    configFile := ConfigFile.parsed "https://cfg.example/hook".data
    sysEnv := fun k =>
      if k = "SLACK_WEBHOOK_URL".data then some "https://env.example/hook".data
      else none }

/-- No secrets file, a config file that exists but fails to parse, and
`SLACK_WEBHOOK_URL` set. -/
def resolutionEnvCx2 : ConfigEnv :=
  { secretsFile := none
    configFile := ConfigFile.unparseable
    sysEnv := fun k =>
      if k = "SLACK_WEBHOOK_URL".data then some "https://env.example/hook".data
      else none }

/-- Claim C5 counterexample: the claimed single precedence order fails twice.
With no secrets file, a parsed config webhook, and `SLACK_WEBHOOK_URL` set,
`get_webhook_url` returns the environment value while the claimed precedence
(and `SlackConfig.load`) yields the config value; and with an unparseable
config file, `SlackConfig.load` returns early with an empty webhook where
the claimed precedence yields the environment value. -/
theorem webhook_precedence_counterexample :
    (get_webhook_url resolutionEnvCx = some "https://env.example/hook".data ∧
     specWebhookResolution resolutionEnvCx = "https://cfg.example/hook".data ∧
     SlackConfig_load_webhook resolutionEnvCx = "https://cfg.example/hook".data ∧
     ("https://env.example/hook".data ≠ "https://cfg.example/hook".data)) ∧
    (SlackConfig_load_webhook resolutionEnvCx2 = [] ∧
     specWebhookResolution resolutionEnvCx2 = "https://env.example/hook".data) := by decide

/-- Claim C5 (amended): `SlackConfig.load` resolves the webhook in the
claimed order — secrets file, then config file with placeholder expansion,
then environment variable — whenever the config file is absent or parses;
when the config file exists but fails to parse, `load` returns early with
the secrets value (possibly empty), skipping the environment fallback.
`get_webhook_url` keeps the secrets file first (skipping empty or
`#`-comment contents) but consults the plain environment variable *before*
the config file. -/
theorem webhook_precedence_amended (e : ConfigEnv) :
    (e.configFile ≠ ConfigFile.unparseable →
      SlackConfig_load_webhook e = specWebhookResolution e) ∧
    (e.configFile = ConfigFile.unparseable →
      SlackConfig_load_webhook e = secretsValue e) ∧
    (∀ s, e.secretsFile = some s → pyStrip s ≠ [] →
      ¬ "#".data.isPrefixOf (pyStrip s) →
      get_webhook_url e = some (pyStrip s)) ∧
    ((∀ s, e.secretsFile = some s →
        pyStrip s = [] ∨ "#".data.isPrefixOf (pyStrip s)) →
      ∀ u, e.sysEnv "SLACK_WEBHOOK_URL".data = some u → u ≠ [] →
        get_webhook_url e = some u) ∧
    ((∀ s, e.secretsFile = some s →
        pyStrip s = [] ∨ "#".data.isPrefixOf (pyStrip s)) →
      (e.sysEnv "SLACK_WEBHOOK_URL".data).getD [] = [] →
      get_webhook_url e = get_webhook_url_configpart e) := by
  have henv : ∀ u, e.sysEnv "SLACK_WEBHOOK_URL".data = some u → u ≠ [] →
      get_webhook_url_envpart e = some u := by
    intro u hu hne
    unfold get_webhook_url_envpart
    rw [hu]
    exact if_pos hne
  have henv' : (e.sysEnv "SLACK_WEBHOOK_URL".data).getD [] = [] →
      get_webhook_url_envpart e = get_webhook_url_configpart e := by
    intro hempty
    unfold get_webhook_url_envpart
    rw [hempty]
    simp
  have hsecmiss : (∀ s, e.secretsFile = some s →
      pyStrip s = [] ∨ "#".data.isPrefixOf (pyStrip s)) →
      get_webhook_url e = get_webhook_url_envpart e := by
    intro hsec
    unfold get_webhook_url
    cases hsm : e.secretsFile with
    | none => rfl
    | some s =>
      simp only []
      rw [if_neg]
      rintro ⟨h1, h2⟩
      rcases hsec s hsm with h | h
      · exact h1 h
      · exact h2 h
  refine ⟨?_, ?_, ?_, ?_, ?_⟩
  · intro hcf
    cases hc : e.configFile with
    | unparseable => exact absurd hc hcf
    | absent =>
      simp only [SlackConfig_load_webhook, specWebhookResolution, hc]
      by_cases hs : secretsValue e ≠ [] <;> simp [hs]
    | parsed w =>
      simp only [SlackConfig_load_webhook, specWebhookResolution, hc]
      by_cases hs : secretsValue e ≠ [] <;> simp [hs]
  · intro hcf
    simp only [SlackConfig_load_webhook, hcf]
  · intro s hs h1 h2
    simp only [get_webhook_url, hs]
    rw [if_pos ⟨h1, h2⟩]
  · intro hsec u hu hne
    rw [hsecmiss hsec]
    exact henv u hu hne
  · intro hsec hempty
    rw [hsecmiss hsec]
    exact henv' hempty

/-- A secrets file whose stripped contents are a nonempty non-comment URL. -/
def resolutionEnvW : ConfigEnv :=
  { secretsFile := some "  https://hooks.example/secret  ".data
    configFile := ConfigFile.parsed "https://cfg.example/hook".data
    sysEnv := fun _ => none }

/-- Witness for `webhook_precedence_amended` at a concrete input. -/
theorem webhook_precedence_amended_witness :
    SlackConfig_load_webhook resolutionEnvW = specWebhookResolution resolutionEnvW ∧
    get_webhook_url resolutionEnvW =
      some (pyStrip "  https://hooks.example/secret  ".data) :=
  ⟨(webhook_precedence_amended resolutionEnvW).1 (by decide),
   (webhook_precedence_amended resolutionEnvW).2.2.1 _ rfl (by decide) (by decide)⟩

/-! ## Secret redaction on failure paths (`SlackNotifier.send`,
beads_watcher_template.py lines 378-421 / notifier.py lines 232-271, the
inline masking at lines 416-420, and `SensitiveDataFilter`, lines 73-99) -/

theorem isPrefix_append_cases {α : Type} {p xs ys : List α} (h : p <+: xs ++ ys) :
    p <+: xs ∨ ∃ q, p = xs ++ q ∧ q <+: ys := by
  induction xs generalizing p with
  | nil =>
    right
    exact ⟨p, rfl, h⟩
  | cons x xs ih =>
    cases p with
    | nil => left; exact List.nil_prefix
    | cons a p' =>
      rw [List.cons_append] at h
      obtain ⟨hax, hp'⟩ := List.cons_prefix_cons.mp h
      subst hax
      rcases ih hp' with h' | ⟨q, hq, hq'⟩
      · left
        exact List.cons_prefix_cons.mpr ⟨rfl, h'⟩
      · right
        exact ⟨q, by rw [hq, List.cons_append], hq'⟩

theorem isInfix_append_cases {α : Type} {p xs ys : List α} (h : p <:+: xs ++ ys) :
    p <:+: xs ∨ p <:+: ys ∨
      ∃ p₁ p₂, p = p₁ ++ p₂ ∧ p₁ ≠ [] ∧ p₁ <:+ xs ∧ p₂ <+: ys := by
  induction xs generalizing p with
  | nil =>
    right; left
    simpa using h
  | cons x xs ih =>
    rw [List.cons_append] at h
    rcases List.infix_cons_iff.mp h with hpre | hinf
    · rcases @isPrefix_append_cases α p (x :: xs) ys
        (by rwa [List.cons_append]) with h' | ⟨q, hq, hq'⟩
      · left
        exact h'.isInfix
      · cases hqe : q with
        | nil =>
          left
          rw [hq, hqe, List.append_nil]
        | cons b q' =>
          right; right
          exact ⟨x :: xs, q, hq, List.cons_ne_nil x xs, List.suffix_refl _, hq'⟩
    · rcases ih hinf with h1 | h2 | ⟨p₁, p₂, hp, hne, hsuf, hpre2⟩
      · left
        exact List.infix_cons h1
      · right; left
        exact h2
      · right; right
        exact ⟨p₁, p₂, hp, hne, hsuf.trans (List.suffix_cons x xs), hpre2⟩

/-- The character class `[A-Za-z0-9/]` of the webhook-masking regex
`https://hooks\.slack\.com/services/[A-Za-z0-9/]+`. -/
def urlClassChar (c : Char) : Bool := c.isAlpha || c.isDigit || c = '/'

/-- The fixed part of the webhook-masking regex. -/
def hooksServices : List Char := "https://hooks.slack.com/services/".data

/-- One left-to-right pass of `re.sub(pattern, rep, s)` for the webhook
pattern: at each position, if the fixed part is present and followed by at
least one class character, replace the fixed part together with the maximal
class-character run by `rep` and continue after the match; otherwise move one
character.  The fuel argument bounds the recursion; every step consumes at
least one character, so `s.length` fuel always suffices. -/
def maskSubGo (rep : List Char) : Nat → List Char → List Char
  | _, [] => []
  | 0, s => s
  | fuel + 1, c :: rest =>
    if hooksServices.isPrefixOf (c :: rest) ∧
        ((c :: rest).drop 33).takeWhile urlClassChar ≠ [] then
      rep ++ maskSubGo rep fuel (((c :: rest).drop 33).dropWhile urlClassChar)
    else c :: maskSubGo rep fuel rest

/-- Embedding of the full regex substitution over a string. -/
def maskSub (rep s : List Char) : List Char := maskSubGo rep s.length s

/-- The replacement used inside `send`'s exception handler (line 419). -/
def maskedErrToken : List Char := "[MASKED]".data

/-- The replacement used by `SensitiveDataFilter` (line 80). -/
def maskedLogToken : List Char := "[WEBHOOK_URL_MASKED]".data

theorem urlClassChar_ne_bracket {c : Char} (h : urlClassChar c = true) : c ≠ '[' := by
  intro he
  subst he
  exact absurd h (by decide)

/-- A bracket-free prefix of a masked string is a prefix of the unmasked
string: replacements always start with `[`, so such a prefix never overlaps
one. -/
theorem maskSubGo_prefix_transfer (rep : List Char) (hrep0 : rep.head? = some '[') :
    ∀ (fuel : Nat) (r X : List Char), '[' ∉ X → X <+: maskSubGo rep fuel r → X <+: r := by
  intro fuel
  induction fuel with
  | zero =>
    intro r X _ h
    cases r with
    | nil => exact h
    | cons c rest => exact h
  | succ fuel ih =>
    intro r X hX h
    cases r with
    | nil => exact h
    | cons c rest =>
      by_cases hcond : hooksServices.isPrefixOf (c :: rest) ∧
          ((c :: rest).drop 33).takeWhile urlClassChar ≠ []
      · rw [maskSubGo, if_pos hcond] at h
        cases X with
        | nil => exact List.nil_prefix
        | cons x X' =>
          cases hrep : rep with
          | nil => rw [hrep] at hrep0; exact absurd hrep0 (by simp)
          | cons b rep' =>
            rw [hrep] at hrep0
            have hb : b = '[' := by simpa using hrep0
            rw [hrep, List.cons_append] at h
            obtain ⟨hxb, _⟩ := List.cons_prefix_cons.mp h
            subst hb
            exact absurd (hxb ▸ List.mem_cons_self x X') hX
      · rw [maskSubGo, if_neg hcond] at h
        cases X with
        | nil => exact List.nil_prefix
        | cons x X' =>
          obtain ⟨hxc, hX'⟩ := List.cons_prefix_cons.mp h
          have hX'mem : '[' ∉ X' := fun hm => hX (List.mem_cons_of_mem x hm)
          exact List.cons_prefix_cons.mpr ⟨hxc, ih rest X' hX'mem hX'⟩

/-- After masking, no occurrence of the fixed pattern part followed by a
class character remains: every such occurrence in the input is replaced, and
replacements (which contain no lowercase `h` and start with `[`) cannot
recombine with surrounding text into a new occurrence. -/
theorem maskSubGo_no_match (rep : List Char) (hrep0 : rep.head? = some '[')
    (hrepH : 'h' ∉ rep) :
    ∀ (fuel : Nat) (s : List Char), s.length ≤ fuel → ∀ c', urlClassChar c' = true →
      ¬ (hooksServices ++ [c']) <:+: maskSubGo rep fuel s := by
  have hhs : hooksServices = 'h' :: hooksServices.tail := by decide
  intro fuel
  induction fuel with
  | zero =>
    intro s hlen c' hc' h
    have hs : s = [] := List.length_eq_zero.mp (Nat.le_zero.mp hlen)
    subst hs
    rw [show maskSubGo rep 0 [] = [] from rfl] at h
    have := List.eq_nil_of_infix_nil h
    exact absurd this (by simp)
  | succ fuel ih =>
    intro s hlen c' hc' h
    cases s with
    | nil =>
      rw [show maskSubGo rep (fuel + 1) [] = [] from rfl] at h
      have := List.eq_nil_of_infix_nil h
      exact absurd this (by simp)
    | cons c rest =>
      by_cases hcond : hooksServices.isPrefixOf (c :: rest) ∧
          ((c :: rest).drop 33).takeWhile urlClassChar ≠ []
      · rw [maskSubGo, if_pos hcond] at h
        rcases isInfix_append_cases h with h1 | h2 | ⟨p₁, p₂, hp, hne, hsuf, _⟩
        · exact hrepH (h1.sublist.subset (List.mem_append_left _ (by decide)))
        · have hRlen : (((c :: rest).drop 33).dropWhile urlClassChar).length ≤ fuel := by
            have ha : (((c :: rest).drop 33).dropWhile urlClassChar).length ≤
                ((c :: rest).drop 33).length := (List.dropWhile_sublist _).length_le
            have hb : ((c :: rest).drop 33).length = (c :: rest).length - 33 :=
              List.length_drop _ _
            have hcl : (c :: rest).length = rest.length + 1 := List.length_cons c rest
            omega
          exact ih _ hRlen c' hc' h2
        · cases p₁ with
          | nil => exact hne rfl
          | cons a q =>
            have ha : a = 'h' := by
              rw [hhs, List.cons_append, List.cons_append] at hp
              exact (List.cons.injEq _ _ _ _ ▸ hp).1.symm
            subst ha
            exact hrepH (hsuf.sublist.subset (List.mem_cons_self _ _))
      · rw [maskSubGo, if_neg hcond] at h
        rcases List.infix_cons_iff.mp h with hpre | htail
        · rw [hhs, List.cons_append] at hpre
          obtain ⟨hch, htailpre⟩ := List.cons_prefix_cons.mp hpre
          have hnb : '[' ∉ hooksServices.tail ++ [c'] := by
            intro hm
            rcases List.mem_append.mp hm with hm1 | hm1
            · exact absurd hm1 (by decide)
            · rw [List.mem_singleton] at hm1
              exact urlClassChar_ne_bracket hc' hm1.symm
          have htr : hooksServices.tail ++ [c'] <+: rest :=
            maskSubGo_prefix_transfer rep hrep0 fuel rest _ hnb htailpre
          have hfull : hooksServices ++ [c'] <+: c :: rest := by
            rw [hhs, List.cons_append]
            exact List.cons_prefix_cons.mpr ⟨hch, htr⟩
          obtain ⟨t, ht⟩ := hfull
          have hpre33 : hooksServices <+: c :: rest :=
            (List.prefix_append hooksServices [c']).trans ⟨t, ht⟩
          have hdrop : (c :: rest).drop 33 = c' :: t := by
            rw [← ht, List.append_assoc]
            have h33 : hooksServices.length = 33 := by decide
            rw [List.drop_left' h33]
            rfl
          refine hcond ⟨List.isPrefixOf_iff_prefix.mpr hpre33, ?_⟩
          rw [hdrop]
          simp [List.takeWhile_cons, hc']
        · have : rest.length ≤ fuel := by
            have := List.length_cons c rest
            omega
          exact ih rest this c' hc' htail

/-- A canonical Slack webhook URL: the fixed pattern part followed by a
nonempty run of class characters (the shape of every real
`hooks.slack.com/services/...` URL). -/
def slackShaped (url : List Char) : Prop :=
  ∃ s, url = hooksServices ++ s ∧ s ≠ [] ∧ ∀ c ∈ s, urlClassChar c = true

/-- Masking removes every occurrence of a canonical Slack webhook URL. -/
theorem maskSub_no_url (rep : List Char) (hrep0 : rep.head? = some '[')
    (hrepH : 'h' ∉ rep) (url : List Char) (hurl : slackShaped url)
    (m : List Char) : ¬ url <:+: maskSub rep m := by
  obtain ⟨s, rfl, hne, hcls⟩ := hurl
  cases s with
  | nil => exact absurd rfl hne
  | cons c₀ s' =>
    intro hinf
    have hpre : (hooksServices ++ [c₀]) <+: (hooksServices ++ c₀ :: s') :=
      ⟨s', by simp⟩
    exact maskSubGo_no_match rep hrep0 hrepH m.length m le_rfl c₀
      (hcls c₀ (List.mem_cons_self _ _)) (hpre.isInfix.trans hinf)

/-- The outcome of the `requests.post` transport call. -/
inductive Transport where
  | ok (status : Nat)
  | timeout
  | reqError (msg : List Char)
  deriving DecidableEq, Repr

/-- Embedding of `SensitiveDataFilter.filter` applied to one log record message. -/
def applyLogFilter (m : List Char) : List Char := maskSub maskedLogToken m

/-- What `send` reads: the configured webhook and channel, the rate
limiter's verdict for this call, and the limiter stats interpolated into the
rate-limit log line. -/
structure SendCtx where
  webhook : List Char
  channel : Option (List Char)
  allowed : Bool
  reqInWindow : Nat
  maxReq : Nat
  winSecs : Nat

/-- Embedding of `SlackNotifier.send`: the success flag and the log lines emitted, each
passing through the `SensitiveDataFilter` installed on the logger. -/
def SlackNotifier_send (ctx : SendCtx) (text : List Char) (tr : Transport) :
    Bool × List (List Char) :=
  if ctx.webhook = [] then
    (false, [applyLogFilter "No webhook URL configured - skipping notification".data])
  else if ctx.allowed = false then
    (false, [applyLogFilter ("Rate limit exceeded (".data ++ (Nat.repr ctx.reqInWindow).data
      ++ "/".data ++ (Nat.repr ctx.maxReq).data ++ " in ".data
      ++ (Nat.repr ctx.winSecs).data ++ "s)".data)])
  else
    match tr with
    | .ok status =>
      if status = 200 then
        (true, [applyLogFilter ("Sent notification: ".data ++
          (sanitize_for_slack text).take 50 ++ "...".data)])
      else
        (false, [applyLogFilter ("Slack API error: HTTP ".data ++ (Nat.repr status).data)])
    | .timeout => (false, [applyLogFilter "Slack API timeout".data])
    | .reqError msg =>
      (false, [applyLogFilter ("Failed to send Slack notification: ".data ++
        maskSub maskedErrToken msg)])

/-- A configuration whose webhook is not a `hooks.slack.com/services/` URL. -/
def sendCtxCx : SendCtx :=
  { webhook := "https://example.com/abc".data, channel := none, allowed := true,
    reqInWindow := 0, maxReq := 30, winSecs := 60 }

set_option maxRecDepth 8000 in
/-- Claim C8 counterexample: the redaction regex only matches
`https://hooks.slack.com/services/` URLs over `[A-Za-z0-9/]`, so with any
other configured webhook URL a raised request exception whose message
contains the URL is logged with the URL intact. -/
theorem send_redaction_counterexample :
    (SlackNotifier_send sendCtxCx "hi".data
      (Transport.reqError
        ("connection error for url: https://example.com/abc".data))).1 = false ∧
    ∃ m ∈ (SlackNotifier_send sendCtxCx "hi".data
      (Transport.reqError
        ("connection error for url: https://example.com/abc".data))).2,
      sendCtxCx.webhook <:+: m := by decide

/-- Claim C8 (amended): for every canonically-shaped Slack webhook URL, `send`
returns failure on every non-success transport outcome, and no log line it
emits contains the configured URL — every line passes through the masking
filter and masking removes all canonical URLs.  For URLs of any other shape
the redaction can fail (see the counterexample). -/
theorem send_redaction_amended (ctx : SendCtx) (text : List Char) (tr : Transport)
    (hurl : slackShaped ctx.webhook) :
    ((∀ status, tr = Transport.ok status → status ≠ 200) →
      (SlackNotifier_send ctx text tr).1 = false) ∧
    (∀ m ∈ (SlackNotifier_send ctx text tr).2, ¬ ctx.webhook <:+: m) := by
  have hw : ctx.webhook ≠ [] := by
    obtain ⟨s, hs, _, _⟩ := hurl
    rw [hs]
    simp [hooksServices]
  constructor
  · intro hst
    by_cases hal : ctx.allowed = false
    · simp [SlackNotifier_send, hw, hal]
    · cases tr with
      | ok status =>
        have h200 : status ≠ 200 := hst status rfl
        simp [SlackNotifier_send, hw, hal, h200]
      | timeout => simp [SlackNotifier_send, hw, hal]
      | reqError msg => simp [SlackNotifier_send, hw, hal]
  · intro m hm
    have hex : ∃ x, (SlackNotifier_send ctx text tr).2 = [applyLogFilter x] := by
      by_cases hal : ctx.allowed = false
      · refine ⟨"Rate limit exceeded (".data ++ (Nat.repr ctx.reqInWindow).data
          ++ "/".data ++ (Nat.repr ctx.maxReq).data ++ " in ".data
          ++ (Nat.repr ctx.winSecs).data ++ "s)".data, ?_⟩
        simp [SlackNotifier_send, hw, hal]
      · cases tr with
        | ok status =>
          by_cases h200 : status = 200
          · refine ⟨"Sent notification: ".data ++ (sanitize_for_slack text).take 50
              ++ "...".data, ?_⟩
            simp [SlackNotifier_send, hw, hal, h200]
          · refine ⟨"Slack API error: HTTP ".data ++ (Nat.repr status).data, ?_⟩
            simp [SlackNotifier_send, hw, hal, h200]
        | timeout =>
          refine ⟨"Slack API timeout".data, ?_⟩
          simp [SlackNotifier_send, hw, hal]
        | reqError msg =>
          refine ⟨"Failed to send Slack notification: ".data
            ++ maskSub maskedErrToken msg, ?_⟩
          simp [SlackNotifier_send, hw, hal]
    obtain ⟨x, hx⟩ := hex
    rw [hx, List.mem_singleton] at hm
    subst hm
    exact maskSub_no_url maskedLogToken rfl (by decide) ctx.webhook hurl x

/-- A configuration with a canonical Slack webhook URL. -/
def sendCtxW : SendCtx :=
  { webhook := "https://hooks.slack.com/services/T000/B000/XXXX".data, channel := none,
    allowed := true, reqInWindow := 0, maxReq := 30, winSecs := 60 }

/-- Witness for `send_redaction_amended` at a concrete input. -/
theorem send_redaction_amended_witness :
    (SlackNotifier_send sendCtxW "hi".data Transport.timeout).1 = false ∧
    (∀ m ∈ (SlackNotifier_send sendCtxW "hi".data Transport.timeout).2,
      ¬ sendCtxW.webhook <:+: m) := by
  have h := send_redaction_amended sendCtxW "hi".data Transport.timeout
    ⟨"T000/B000/XXXX".data, by decide, by decide, by decide⟩
  exact ⟨h.1 (fun status hst => by cases hst), h.2⟩

/-! ## Double sanitization (`SlackNotifier.notify_created`, lines 423-457,
and the re-sanitization inside `send`, line 391) -/

/-- The text assembled by `SlackNotifier.notify_created`: each field is
sanitized individually before interpolation. -/
def notify_created_text (issue : Issue) : List Char :=
  let agentText := match get_assigned_agent issue with
    | some agent => "\n   Assigned to: ".data ++ sanitize_for_slack agent.data
    | none => []
  "Issue Created: ".data ++ sanitize_for_slack issue.id.data 100 ++
    "\n   \"".data ++ sanitize_for_slack issue.title.data 200 ++ "\"".data ++
    agentText ++ "\n   Priority: P".data ++ (Int.repr issue.priority).data

/-- The payload text `send` actually delivers for a created notification:
the assembled text passed through `sanitize_for_slack` once more. -/
def delivered_created_text (issue : Issue) : List Char :=
  sanitize_for_slack (notify_created_text issue)

/-- An issue whose title contains an ampersand. -/
def ampIssue : Issue := { id := "B-1", title := "A & B", status := "open" }

/-- Claim C10: double sanitization.  The `notify_*` formatters sanitize each
field and `send` re-sanitizes the whole assembled text; `sanitize_for_slack`
is not idempotent, so a `&` in an issue title reaches the transport
double-escaped as `&amp;amp;`. -/
theorem double_sanitization (issue : Issue) :
    delivered_created_text issue = sanitize_for_slack (notify_created_text issue) ∧
    sanitize_for_slack (sanitize_for_slack "&".data) ≠ sanitize_for_slack "&".data ∧
    "&amp;amp;".data <:+: delivered_created_text ampIssue :=
  ⟨rfl, by decide, by decide⟩

end BeadsNotifier
